import Mathlib

/-!
Verification of the spiking-neural-network script (src/main.py).

The script defines a two-layer feed-forward spiking network whose neurons
follow leaky-integrate-and-fire (LIF) dynamics, unrolled over `num_steps`
discrete time steps, trained with a time-summed cross-entropy loss and
evaluated by summing output spikes over time and taking the arg-max class.

Modelling choices:
* Tensors of shape (B, N) become `List (List α)` (B rows of length N);
  a trajectory of T such tensors becomes a `List (List (List α))` of
  length T (time is the outer dimension, matching `torch.stack(_, dim=0)`).
* Membrane dynamics are polymorphic over a `LinearOrderedField` so that
  witnesses can evaluate them over `ℚ` while the real-valued cross-entropy
  loss lives over `ℝ`.
* The LIF unit itself is provided by the external `snntorch` library
  (`snn.Leaky`), whose code is not part of this repository; it is modelled
  from the spec (§4.1).
-/

namespace SNN

variable {α : Type} [LinearOrderedField α]

/-- Modelled from the spec: the LIF Neuron Unit (`snn.Leaky` from the external
snntorch library, instantiated at src/main.py lines 61 and 63, is not part of
this repository).  Given decay `beta`, threshold `thresh`, input current `I`
and previous membrane potential `Vprev`, the unit updates
`V_t = beta * V_{t-1} + I_t - R_t * thresh` where the reset term `R_t` is the
previous step's spike indicator, and emits a spike `S_t = 1` iff
`V_t >= thresh` (subtractive reset).  Returns `(S_t, V_t)`. -/
def lifStep (beta thresh : α) (I Vprev : α) : α × α :=
  let R : α := if thresh ≤ Vprev then 1 else 0
  let V : α := beta * Vprev + I - R * thresh
  let S : α := if thresh ≤ V then 1 else 0
  (S, V)

/-- Modelled from the spec: a single LIF unit iterated over time under a
current sequence `I`, starting from the baseline potential `v0`
(the spec's "Initialization: potential starts at a configurable baseline").
`memSeq beta thresh I v0 n` is the membrane potential after `n` update
steps. -/
def memSeq (beta thresh : α) (I : ℕ → α) (v0 : α) : ℕ → α
  | 0 => v0
  | n + 1 => (lifStep beta thresh (I n) (memSeq beta thresh I v0 n)).2

/-- Dot product of two vectors (truncating to the shorter). -/
def dot (xs ys : List α) : α := (List.zipWith (· * ·) xs ys).sum

/-- `nn.Linear` (src/main.py lines 60 and 62): an affine map given by a
weight matrix `W` (one row per output feature) and a bias vector `b`. -/
def linear (W : List (List α)) (b : List α) (x : List α) : List α :=
  List.zipWith (fun row bi => dot row x + bi) W b

/-- A batched affine map: `nn.Linear` applied to a (B, in) tensor row by
row, giving a (B, out) tensor. -/
def linearBatch (W : List (List α)) (b : List α) (X : List (List α)) :
    List (List α) :=
  X.map (linear W b)

/-- Modelled from the spec: one `snn.Leaky` layer applied to a vector of
input currents and a vector of previous potentials, pairing the neurons
elementwise.  Returns (spike vector, new potential vector). -/
def leakyForward (beta thresh : α) (I mem : List α) : List α × List α :=
  let pairs := List.zipWith (lifStep beta thresh) I mem
  (pairs.map Prod.fst, pairs.map Prod.snd)

/-- Modelled from the spec: a batched `snn.Leaky` layer on (B, N) tensors of
currents and previous potentials, applied row by row (the batch dimension is
elementwise). -/
def leakyBatch (beta thresh : α) (I mem : List (List α)) :
    List (List α) × List (List α) :=
  let rows := List.zipWith (leakyForward beta thresh) I mem
  (rows.map Prod.fst, rows.map Prod.snd)

/-- The learned parameters of the two-layer network (src/main.py
`Net.__init__`, lines 56-63): weights and biases of `linear1` and
`linear2`. -/
structure Net (α : Type) where
  W1 : List (List α)
  b1 : List α
  W2 : List (List α)
  b2 : List α

/-- A network is well formed when each bias vector has one entry per
output row of its weight matrix (always true of `nn.Linear`). -/
def Net.WF (net : Net α) : Prop :=
  net.b1.length = net.W1.length ∧ net.b2.length = net.W2.length

/-- The body of the simulation loop of `Net.forward` (src/main.py lines
76-83), unrolled by recursion on the number of remaining steps, threading
the two layers' membrane-potential tensors and recording the output layer's
spike and potential tensors at every step.  Returns (spike trajectory,
potential trajectory), each a list of (B, num_outputs) tensors. -/
def forwardAux (beta thresh : α) (net : Net α) (X : List (List α)) :
    ℕ → List (List α) → List (List α) →
    List (List (List α)) × List (List (List α))
  | 0, _, _ => ([], [])
  | T + 1, mem1, mem2 =>
    let cur1 := linearBatch net.W1 net.b1 X
    let p1 := leakyBatch beta thresh cur1 mem1
    let cur2 := linearBatch net.W2 net.b2 p1.1
    let p2 := leakyBatch beta thresh cur2 mem2
    let rest := forwardAux beta thresh net X T p1.2 p2.2
    (p2.1 :: rest.1, p2.2 :: rest.2)

/-- The baseline (zero) membrane-potential tensor for a layer of width `n`
on a batch of `B` samples: `init_leaky()` resets the potential to the
baseline 0 (src/main.py lines 68-69; spec §4.1 "potential starts at a
configurable baseline (commonly 0)"). -/
def initMem (B n : ℕ) : List (List α) :=
  List.replicate B (List.replicate n (0 : α))

/-- `Net.forward` (src/main.py lines 65-88): reinitialize both layers'
membrane potentials to the baseline, unroll the layer stack for `T` time
steps on the static input batch `X`, and return the output layer's spike
and membrane-potential trajectories. -/
def Net.forward (beta thresh : α) (net : Net α) (T : ℕ)
    (X : List (List α)) : List (List (List α)) × List (List (List α)) :=
  forwardAux beta thresh net X T
    (initMem X.length net.W1.length) (initMem X.length net.W2.length)

/-- The forward unroll restricted to a single sample `x` of the batch:
the batched tensor operations of `Net.forward` act on the batch dimension
row by row, so one sample's trajectory is obtained by threading that
sample's membrane-potential rows alone. -/
def sforwardAux (beta thresh : α) (net : Net α) (x : List α) :
    ℕ → List α → List α → List (List α) × List (List α)
  | 0, _, _ => ([], [])
  | T + 1, mem1, mem2 =>
    let cur1 := linear net.W1 net.b1 x
    let p1 := leakyForward beta thresh cur1 mem1
    let cur2 := linear net.W2 net.b2 p1.1
    let p2 := leakyForward beta thresh cur2 mem2
    let rest := sforwardAux beta thresh net x T p1.2 p2.2
    (p2.1 :: rest.1, p2.2 :: rest.2)

/-- Single-sample version of `Net.forward`: unroll from the baseline
potentials and record the output layer's spike and potential vectors. -/
def sforward (beta thresh : α) (net : Net α) (T : ℕ) (x : List α) :
    List (List α) × List (List α) :=
  sforwardAux beta thresh net x T
    (List.replicate net.W1.length 0) (List.replicate net.W2.length 0)

/-- Index of the (first) maximal entry, tracking the best index/value seen
so far; `i` is the index of the head of the remaining list. -/
def argmaxGo : List α → ℕ → ℕ → α → ℕ
  | [], _, bi, _ => bi
  | x :: xs, i, bi, bv =>
    if bv < x then argmaxGo xs (i + 1) i x else argmaxGo xs (i + 1) bi bv

/-- `torch.max(1)`'s index output on one row (src/main.py lines 100 and
210): the index of the maximal entry (first one on ties); 0 on the empty
list. -/
def argmax : List α → ℕ
  | [] => 0
  | x :: xs => argmaxGo xs 1 0 x

/-- Elementwise sum of two (B, N) tensors. -/
def matAdd (A B : List (List α)) : List (List α) :=
  List.zipWith (List.zipWith (· + ·)) A B

/-- `tensor.sum(dim=0)` on a stacked (T, B, N) trajectory (src/main.py
lines 99 and 209): elementwise sum of the `T` tensors. -/
def sumDim0 : List (List (List α)) → List (List α)
  | [] => []
  | t :: ts => ts.foldl matAdd t

/-- `vector.sum(dim=0)` restricted to a single sample's (T, N) spike rows:
elementwise sum of the `T` rows. -/
def sumDim0Vec : List (List α) → List α
  | [] => []
  | v :: vs => vs.foldl (List.zipWith (· + ·)) v

/-- One batch of the full-dataset evaluation loop (src/main.py lines
201-213): run the forward pass on the batch's samples, sum the output
spikes over time, take the arg-max class per sample, and count the
predictions that match the targets. -/
def evalChunk (beta thresh : α) (net : Net α) (T : ℕ)
    (batch : List (List α × ℕ)) : ℕ :=
  let X := batch.map Prod.fst
  let targets := batch.map Prod.snd
  let spk := (Net.forward beta thresh net T X).1
  let predicted := (sumDim0 spk).map argmax
  (List.zipWith (fun p t => p == t) predicted targets).count true

/-- The accumulation of the full-dataset evaluation loop (src/main.py lines
193-214): fold over the loader's batches, adding each batch's correct count
to `corrects` and its sample count to `total`. -/
def evalLoop (beta thresh : α) (net : Net α) (T : ℕ)
    (batches : List (List (List α × ℕ))) : ℕ × ℕ :=
  batches.foldl
    (fun acc batch => (acc.1 + evalChunk beta thresh net T batch,
                       acc.2 + batch.length))
    (0, 0)

/-- Whether the evaluator predicts sample `s`'s label: forward-simulate the
sample, sum its output spikes over time, and compare the arg-max class with
the label. -/
def correctSample (beta thresh : α) (net : Net α) (T : ℕ)
    (s : List α × ℕ) : Bool :=
  argmax (sumDim0Vec (sforward beta thresh net T s.1).1) == s.2

/-- `DataLoader` batching with `drop_last=False` (src/main.py lines
196-197): split the dataset into consecutive batches of `bs` samples,
keeping the final partial batch.  The fuel argument (instantiated with the
dataset length) makes the recursion structural. -/
def chunksGo (bs : ℕ) : ℕ → List β → List (List β)
  | _, [] => []
  | 0, _ => []
  | fuel + 1, l => l.take bs :: chunksGo bs fuel (l.drop bs)

/-- `DataLoader` batches with `drop_last=False`: all batches, including the
final partial one. -/
def chunks (bs : ℕ) (l : List β) : List (List β) := chunksGo bs l.length l

/-- `DataLoader` batching with `drop_last=True` (src/main.py lines 51-52):
emit a batch only while `bs` samples remain, so the final partial batch is
dropped. -/
def chunksDropLastGo (bs : ℕ) : ℕ → List β → List (List β)
  | 0, _ => []
  | fuel + 1, l =>
    if bs ≤ l.length then l.take bs :: chunksDropLastGo bs fuel (l.drop bs)
    else []

/-- `DataLoader` batches with `drop_last=True`: only full batches of `bs`
samples. -/
def chunksDropLast (bs : ℕ) (l : List β) : List (List β) :=
  chunksDropLastGo bs l.length l

/-- `tensor.view(B, -1)` (src/main.py lines 98 and 141): reshape a flat
buffer of `numel` elements into `B` rows of `numel / B` elements; defined
only when `B` is positive and divides `numel`, otherwise the reshape
raises. -/
def viewFlat (B : ℕ) (flat : List β) : Option (List (List β)) :=
  if B ≠ 0 ∧ flat.length % B = 0 then some (chunks (flat.length / B) flat)
  else none

end SNN

namespace SNN

/-- `nn.CrossEntropyLoss` on a single sample (src/main.py line 117, an
external PyTorch collaborator modelled by its documented formula): the
negative log-softmax of the logits at the label,
`log (Σ_j exp logits_j) - logits_label`. -/
noncomputable def crossEntropy (logits : List ℝ) (label : ℕ) : ℝ :=
  Real.log ((logits.map Real.exp).sum) - logits.getD label 0

/-- `nn.CrossEntropyLoss` on a batch with the default `reduction='mean'`:
the mean over the batch of the per-sample cross-entropies. -/
noncomputable def crossEntropyLoss (logits : List (List ℝ))
    (targets : List ℕ) : ℝ :=
  (List.zipWith crossEntropy logits targets).sum / logits.length

/-- The training-loss aggregation (src/main.py lines 144-146): starting
from zero, add the cross-entropy of the step-`step` potential tensor
against the targets for every `step < T`. -/
noncomputable def loss_val (T : ℕ) (memRec : List (List (List ℝ)))
    (targets : List ℕ) : ℝ :=
  ∑ step ∈ Finset.range T, crossEntropyLoss (memRec.getD step []) targets

/-- The mutable state carried across training iterations: the network
parameters and the two loss histories (src/main.py lines 123-124). -/
structure TrainState where
  net : Net ℝ
  train_loss_hist : List ℝ
  test_loss_hist : List ℝ

/-- One iteration of the minibatch training loop (src/main.py lines
135-176): forward-simulate the training batch, aggregate the time-summed
loss, update the weights (the gradient computation and optimizer step,
external collaborators, are abstracted as `update`, which sees only the
current weights, the batch, and the loss), append the training loss to its
history, then forward-simulate the held-out batch with the updated weights
under `no_grad` and append its loss to the test history. -/
noncomputable def trainIteration (beta thresh : ℝ) (T : ℕ)
    (update : Net ℝ → List (List ℝ) → List ℕ → ℝ → Net ℝ)
    (s : TrainState) (data : List (List ℝ)) (targets : List ℕ)
    (test_data : List (List ℝ)) (test_targets : List ℕ) : TrainState :=
  let memRec := (Net.forward beta thresh s.net T data).2
  let lossv := loss_val T memRec targets
  let net' := update s.net data targets lossv
  let testMem := (Net.forward beta thresh net' T test_data).2
  let testLoss := loss_val T testMem test_targets
  ⟨net', s.train_loss_hist ++ [lossv], s.test_loss_hist ++ [testLoss]⟩

end SNN

/-! ## Shape lemmas for the forward unroll -/

namespace SNN

variable {α : Type} [LinearOrderedField α]

lemma length_linear (W : List (List α)) (b : List α) (x : List α) :
    (linear W b x).length = min W.length b.length := by
  simp [linear]

lemma length_linearBatch (W : List (List α)) (b : List α)
    (X : List (List α)) : (linearBatch W b X).length = X.length := by
  simp [linearBatch]

lemma linearBatch_row {W : List (List α)} {b : List α} {X : List (List α)}
    {r : List α} (hr : r ∈ linearBatch W b X) :
    r.length = min W.length b.length := by
  simp only [linearBatch, List.mem_map] at hr
  obtain ⟨x, _, rfl⟩ := hr
  exact length_linear W b x

lemma leakyForward_fst_length (beta thresh : α) (I mem : List α) :
    ((leakyForward beta thresh I mem).1).length = min I.length mem.length := by
  simp [leakyForward]

lemma leakyForward_snd_length (beta thresh : α) (I mem : List α) :
    ((leakyForward beta thresh I mem).2).length = min I.length mem.length := by
  simp [leakyForward]

lemma leakyBatch_fst_length (beta thresh : α) (I M : List (List α)) :
    ((leakyBatch beta thresh I M).1).length = min I.length M.length := by
  simp [leakyBatch]

lemma leakyBatch_snd_length (beta thresh : α) (I M : List (List α)) :
    ((leakyBatch beta thresh I M).2).length = min I.length M.length := by
  simp [leakyBatch]

lemma leakyBatch_fst_row {beta thresh : α} {I M : List (List α)} {n : ℕ}
    (hIr : ∀ r ∈ I, r.length = n) (hMr : ∀ r ∈ M, r.length = n) :
    ∀ r ∈ (leakyBatch beta thresh I M).1, r.length = n := by
  intro r hr
  rw [List.mem_iff_getElem] at hr
  obtain ⟨i, hi, rfl⟩ := hr
  simp only [leakyBatch, List.getElem_map, List.getElem_zipWith]
  rw [leakyForward_fst_length]
  have hi' : i < (List.zipWith (leakyForward beta thresh) I M).length := by
    simpa [leakyBatch] using hi
  rw [List.length_zipWith, lt_min_iff] at hi'
  rw [hIr _ (List.getElem_mem hi'.1), hMr _ (List.getElem_mem hi'.2),
    min_self]

lemma leakyBatch_snd_row {beta thresh : α} {I M : List (List α)} {n : ℕ}
    (hIr : ∀ r ∈ I, r.length = n) (hMr : ∀ r ∈ M, r.length = n) :
    ∀ r ∈ (leakyBatch beta thresh I M).2, r.length = n := by
  intro r hr
  rw [List.mem_iff_getElem] at hr
  obtain ⟨i, hi, rfl⟩ := hr
  simp only [leakyBatch, List.getElem_map, List.getElem_zipWith]
  rw [leakyForward_snd_length]
  have hi' : i < (List.zipWith (leakyForward beta thresh) I M).length := by
    simpa [leakyBatch] using hi
  rw [List.length_zipWith, lt_min_iff] at hi'
  rw [hIr _ (List.getElem_mem hi'.1), hMr _ (List.getElem_mem hi'.2),
    min_self]

/-- Core shape invariant of the unroll: if the threaded potential tensors
have `B = X.length` rows of widths `W1.length` and `W2.length`, the
recorded trajectories have length `T` and all their tensors are
`(X.length, W2.length)`. -/
lemma forwardAux_shape (beta thresh : α) (net : Net α) (X : List (List α))
    (h1 : net.b1.length = net.W1.length)
    (h2 : net.b2.length = net.W2.length) :
    ∀ (T : ℕ) (Mem1 Mem2 : List (List α)),
      Mem1.length = X.length → (∀ r ∈ Mem1, r.length = net.W1.length) →
      Mem2.length = X.length → (∀ r ∈ Mem2, r.length = net.W2.length) →
      (forwardAux beta thresh net X T Mem1 Mem2).1.length = T ∧
      (forwardAux beta thresh net X T Mem1 Mem2).2.length = T ∧
      (∀ t ∈ (forwardAux beta thresh net X T Mem1 Mem2).1,
        t.length = X.length ∧ ∀ r ∈ t, r.length = net.W2.length) ∧
      (∀ t ∈ (forwardAux beta thresh net X T Mem1 Mem2).2,
        t.length = X.length ∧ ∀ r ∈ t, r.length = net.W2.length) := by
  intro T
  induction T with
  | zero => intro Mem1 Mem2 _ _ _ _; simp [forwardAux]
  | succ T ih =>
    intro Mem1 Mem2 hM1 hM1r hM2 hM2r
    have hcur1r : ∀ r ∈ linearBatch net.W1 net.b1 X,
        r.length = net.W1.length := by
      intro r hr; rw [linearBatch_row hr, h1, min_self]
    have hcur1 : (linearBatch net.W1 net.b1 X).length = X.length :=
      length_linearBatch _ _ _
    have hp1 : ((leakyBatch beta thresh (linearBatch net.W1 net.b1 X)
        Mem1).1).length = X.length := by
      rw [leakyBatch_fst_length, hcur1, hM1, min_self]
    have hp1s : ((leakyBatch beta thresh (linearBatch net.W1 net.b1 X)
        Mem1).2).length = X.length := by
      rw [leakyBatch_snd_length, hcur1, hM1, min_self]
    have hp1r : ∀ r ∈ (leakyBatch beta thresh (linearBatch net.W1 net.b1 X)
        Mem1).2, r.length = net.W1.length :=
      leakyBatch_snd_row hcur1r hM1r
    have hcur2r : ∀ r ∈ linearBatch net.W2 net.b2
        (leakyBatch beta thresh (linearBatch net.W1 net.b1 X) Mem1).1,
        r.length = net.W2.length := by
      intro r hr; rw [linearBatch_row hr, h2, min_self]
    have hcur2 : (linearBatch net.W2 net.b2
        (leakyBatch beta thresh (linearBatch net.W1 net.b1 X) Mem1).1).length
        = X.length := by rw [length_linearBatch, hp1]
    have hp2 : ((leakyBatch beta thresh (linearBatch net.W2 net.b2
        (leakyBatch beta thresh (linearBatch net.W1 net.b1 X) Mem1).1)
        Mem2).1).length = X.length := by
      rw [leakyBatch_fst_length, hcur2, hM2, min_self]
    have hp2s : ((leakyBatch beta thresh (linearBatch net.W2 net.b2
        (leakyBatch beta thresh (linearBatch net.W1 net.b1 X) Mem1).1)
        Mem2).2).length = X.length := by
      rw [leakyBatch_snd_length, hcur2, hM2, min_self]
    have hp2r : ∀ r ∈ (leakyBatch beta thresh (linearBatch net.W2 net.b2
        (leakyBatch beta thresh (linearBatch net.W1 net.b1 X) Mem1).1)
        Mem2).1, r.length = net.W2.length :=
      leakyBatch_fst_row hcur2r hM2r
    have hp2rs : ∀ r ∈ (leakyBatch beta thresh (linearBatch net.W2 net.b2
        (leakyBatch beta thresh (linearBatch net.W1 net.b1 X) Mem1).1)
        Mem2).2, r.length = net.W2.length :=
      leakyBatch_snd_row hcur2r hM2r
    obtain ⟨ihl1, ihl2, iht1, iht2⟩ := ih _ _ hp1s hp1r hp2s hp2rs
    refine ⟨?_, ?_, ?_, ?_⟩ <;>
      simp only [forwardAux, List.length_cons, List.mem_cons]
    · rw [ihl1]
    · rw [ihl2]
    · rintro t (rfl | ht)
      · exact ⟨hp2, hp2r⟩
      · exact iht1 t ht
    · rintro t (rfl | ht)
      · exact ⟨hp2s, hp2rs⟩
      · exact iht2 t ht

lemma initMem_length (B n : ℕ) : (initMem B n : List (List α)).length = B := by
  simp [initMem]

lemma initMem_row (B n : ℕ) :
    ∀ r ∈ (initMem B n : List (List α)), r.length = n := by
  intro r hr
  simp only [initMem, List.mem_replicate] at hr
  rw [hr.2, List.length_replicate]

/-- C1: one forward call returns exactly `T` spike tensors and `T`
potential tensors for the output layer, each of shape
`(B, net.W2.length)` where `B` is the batch size and `net.W2.length` the
number of output neurons. -/
theorem forward_trajectory_shapes (beta thresh : α) (net : Net α) (T : ℕ)
    (X : List (List α)) (hwf : net.WF) :
    (Net.forward beta thresh net T X).1.length = T ∧
    (Net.forward beta thresh net T X).2.length = T ∧
    (∀ t ∈ (Net.forward beta thresh net T X).1,
      t.length = X.length ∧ ∀ r ∈ t, r.length = net.W2.length) ∧
    (∀ t ∈ (Net.forward beta thresh net T X).2,
      t.length = X.length ∧ ∀ r ∈ t, r.length = net.W2.length) :=
  forwardAux_shape beta thresh net X hwf.1 hwf.2 T _ _
    (initMem_length _ _) (initMem_row _ _)
    (initMem_length _ _) (initMem_row _ _)

/-- C1 witness: the shape invariant evaluated on a concrete two-neuron
network, a batch of one sample, and three time steps. -/
theorem forward_trajectory_shapes_witness :
    (Net.forward (1/2 : ℚ) 1 ⟨[[1]], [0], [[1], [0]], [0, 0]⟩ 3 [[2]]).1.length
      = 3 ∧
    (Net.forward (1/2 : ℚ) 1 ⟨[[1]], [0], [[1], [0]], [0, 0]⟩ 3 [[2]]).2.length
      = 3 ∧
    (∀ t ∈ (Net.forward (1/2 : ℚ) 1 ⟨[[1]], [0], [[1], [0]], [0, 0]⟩ 3
        [[2]]).1, t.length = [[(2 : ℚ)]].length ∧
        ∀ r ∈ t, r.length = [[(1 : ℚ)], [0]].length) ∧
    (∀ t ∈ (Net.forward (1/2 : ℚ) 1 ⟨[[1]], [0], [[1], [0]], [0, 0]⟩ 3
        [[2]]).2, t.length = [[(2 : ℚ)]].length ∧
        ∀ r ∈ t, r.length = [[(1 : ℚ)], [0]].length) :=
  forward_trajectory_shapes (1/2 : ℚ) 1 ⟨[[1]], [0], [[1], [0]], [0, 0]⟩ 3
    [[2]] (by constructor <;> rfl)

/-- C2: the Temporal Simulator is deterministic and stateless across
calls: two calls with componentwise-equal weights and the same input
produce identical spike and potential trajectories, and every call
unrolls from the freshly reinitialized baseline potentials (`initMem`),
so no membrane state persists between calls. -/
theorem forward_deterministic (beta thresh : α) (net net' : Net α) (T : ℕ)
    (X : List (List α)) (hW1 : net.W1 = net'.W1) (hb1 : net.b1 = net'.b1)
    (hW2 : net.W2 = net'.W2) (hb2 : net.b2 = net'.b2) :
    Net.forward beta thresh net T X = Net.forward beta thresh net' T X ∧
    Net.forward beta thresh net T X = forwardAux beta thresh net X T
      (initMem X.length net.W1.length) (initMem X.length net.W2.length) := by
  obtain ⟨W1, b1, W2, b2⟩ := net
  obtain ⟨W1', b1', W2', b2'⟩ := net'
  cases hW1; cases hb1; cases hW2; cases hb2
  exact ⟨rfl, rfl⟩

/-- C2 witness: determinism and baseline reinitialization instantiated on
a concrete network and input batch. -/
theorem forward_deterministic_witness :
    Net.forward (1/2 : ℚ) 1 ⟨[[1]], [0], [[1]], [0]⟩ 3 [[2]] =
      Net.forward (1/2 : ℚ) 1 ⟨[[1]], [0], [[1]], [0]⟩ 3 [[2]] ∧
    Net.forward (1/2 : ℚ) 1 ⟨[[1]], [0], [[1]], [0]⟩ 3 [[2]] =
      forwardAux (1/2 : ℚ) 1 ⟨[[1]], [0], [[1]], [0]⟩ [[2]] 3
        (initMem [[(2 : ℚ)]].length [[(1 : ℚ)]].length)
        (initMem [[(2 : ℚ)]].length [[(1 : ℚ)]].length) :=
  forward_deterministic (1/2 : ℚ) 1 ⟨[[1]], [0], [[1]], [0]⟩
    ⟨[[1]], [0], [[1]], [0]⟩ 3 [[2]] rfl rfl rfl rfl

/-- C3: over an unroll of a LIF unit, every step's membrane potential
satisfies `V_t = beta * V_{t-1} + I_t - R_t * thresh`, where the reset
term `R_t` is exactly the previous step's spike output; after a spike
(`R = 1`), the potential is decremented by the threshold — a subtractive
reset, not a hard reset to zero. -/
theorem lif_membrane_update (beta thresh : α) (I : ℕ → α) (v0 : α) (n : ℕ) :
    memSeq beta thresh I v0 (n + 1) =
      beta * memSeq beta thresh I v0 n + I n -
        (if thresh ≤ memSeq beta thresh I v0 n then (1 : α) else 0) * thresh ∧
    (if thresh ≤ memSeq beta thresh I v0 (n + 1) then (1 : α) else 0) =
      (lifStep beta thresh (I n) (memSeq beta thresh I v0 n)).1 ∧
    (thresh ≤ memSeq beta thresh I v0 n →
      memSeq beta thresh I v0 (n + 1) =
        beta * memSeq beta thresh I v0 n + I n - thresh) := by
  refine ⟨rfl, rfl, fun h => ?_⟩
  show (lifStep beta thresh (I n) (memSeq beta thresh I v0 n)).2 = _
  rw [lifStep, if_pos h]
  ring

/-- C3 witness: the update and subtractive reset evaluated on a unit with
`beta = 1/2`, threshold 1, constant current 2, at step 1 (where the
previous potential 2 is above threshold, so the reset fires). -/
theorem lif_membrane_update_witness :
    memSeq (1/2 : ℚ) 1 (fun _ => 2) 0 2 =
      (1/2 : ℚ) * memSeq (1/2 : ℚ) 1 (fun _ => 2) 0 1 + 2 - 1 :=
  (lif_membrane_update (1/2 : ℚ) 1 (fun _ => 2) 0 1).2.2
    (by norm_num [memSeq, lifStep])

lemma lifStep_fst_binary (beta thresh I V : α) :
    (lifStep beta thresh I V).1 = 0 ∨ (lifStep beta thresh I V).1 = 1 := by
  have h : (lifStep beta thresh I V).1 =
      if thresh ≤ (lifStep beta thresh I V).2 then (1 : α) else 0 := rfl
  rw [h]
  by_cases hc : thresh ≤ (lifStep beta thresh I V).2
  · exact Or.inr (if_pos hc)
  · exact Or.inl (if_neg hc)

lemma leakyForward_fst_binary {beta thresh : α} {I mem : List α} :
    ∀ v ∈ (leakyForward beta thresh I mem).1, v = 0 ∨ v = 1 := by
  intro v hv
  rw [List.mem_iff_getElem] at hv
  obtain ⟨j, hj, rfl⟩ := hv
  simp only [leakyForward, List.getElem_map, List.getElem_zipWith]
  exact lifStep_fst_binary _ _ _ _

lemma leakyBatch_fst_binary {beta thresh : α} {I M : List (List α)} :
    ∀ r ∈ (leakyBatch beta thresh I M).1, ∀ v ∈ r, v = 0 ∨ v = 1 := by
  intro r hr
  rw [List.mem_iff_getElem] at hr
  obtain ⟨i, hi, rfl⟩ := hr
  simp only [leakyBatch, List.getElem_map, List.getElem_zipWith]
  exact leakyForward_fst_binary

lemma forwardAux_spike_binary (beta thresh : α) (net : Net α)
    (X : List (List α)) :
    ∀ (T : ℕ) (Mem1 Mem2 : List (List α)),
      ∀ t ∈ (forwardAux beta thresh net X T Mem1 Mem2).1, ∀ r ∈ t,
        ∀ v ∈ r, v = 0 ∨ v = 1 := by
  intro T
  induction T with
  | zero => intro Mem1 Mem2 t ht; simp [forwardAux] at ht
  | succ T ih =>
    intro Mem1 Mem2 t ht
    simp only [forwardAux, List.mem_cons] at ht
    rcases ht with rfl | ht
    · exact leakyBatch_fst_binary
    · exact ih _ _ t ht

/-- C4: the spike emitted by a LIF unit is 1 exactly when the updated
membrane potential reaches the threshold and 0 otherwise, and every entry
of every spike tensor recorded by a forward call is exactly 0 or 1. -/
theorem spike_rule_and_binary (beta thresh : α) :
    (∀ I V : α, (lifStep beta thresh I V).1 =
      if thresh ≤ (lifStep beta thresh I V).2 then (1 : α) else 0) ∧
    (∀ (net : Net α) (T : ℕ) (X : List (List α)),
      ∀ t ∈ (Net.forward beta thresh net T X).1, ∀ r ∈ t,
        ∀ v ∈ r, v = 0 ∨ v = 1) :=
  ⟨fun _ _ => rfl,
   fun net T X => forwardAux_spike_binary beta thresh net X T _ _⟩

/-- C4 witness: the unit spike rule at a concrete potential, and
binariness of a concrete recorded spike entry of a one-step forward
call. -/
theorem spike_rule_and_binary_witness :
    ((lifStep (1/2 : ℚ) 1 2 0).1 =
      if (1 : ℚ) ≤ (lifStep (1/2 : ℚ) 1 2 0).2 then (1 : ℚ) else 0) ∧
    ((1 : ℚ) = 0 ∨ (1 : ℚ) = 1) :=
  ⟨(spike_rule_and_binary (1/2 : ℚ) 1).1 2 0,
   (spike_rule_and_binary (1/2 : ℚ) 1).2 ⟨[[1]], [0], [[1]], [0]⟩ 1 [[2]]
     [[1]]
     (by norm_num [Net.forward, forwardAux, initMem, linearBatch, linear,
       dot, leakyBatch, leakyForward, lifStep])
     [1] (by norm_num) 1 (by norm_num)⟩

/-- C8: with zero input current and decay `beta` in (0,1), starting from a
potential strictly between the baseline 0 and the threshold, the membrane
potential strictly decreases at every step while staying above the
baseline, and no spike fires at any step. -/
theorem lif_zero_input_decay (beta thresh v0 : α) (hb0 : 0 < beta)
    (hb1 : beta < 1) (hv0 : 0 < v0) (hvt : v0 < thresh) :
    ∀ n : ℕ,
      memSeq beta thresh (fun _ => 0) v0 (n + 1) <
        memSeq beta thresh (fun _ => 0) v0 n ∧
      0 < memSeq beta thresh (fun _ => 0) v0 (n + 1) ∧
      (lifStep beta thresh 0 (memSeq beta thresh (fun _ => 0) v0 n)).1 = 0 := by
  have key : ∀ n : ℕ, 0 < memSeq beta thresh (fun _ => 0) v0 n ∧
      memSeq beta thresh (fun _ => 0) v0 n < thresh := by
    intro n
    induction n with
    | zero => exact ⟨hv0, hvt⟩
    | succ n ih =>
      have hstep : memSeq beta thresh (fun _ => 0) v0 (n + 1) =
          beta * memSeq beta thresh (fun _ => 0) v0 n := by
        show (lifStep beta thresh 0 (memSeq beta thresh (fun _ => 0) v0 n)).2
          = _
        rw [lifStep, if_neg (not_le.mpr ih.2)]
        ring
      refine ⟨?_, ?_⟩
      · rw [hstep]; exact mul_pos hb0 ih.1
      · rw [hstep]
        calc beta * memSeq beta thresh (fun _ => 0) v0 n
            < 1 * memSeq beta thresh (fun _ => 0) v0 n :=
              mul_lt_mul_of_pos_right hb1 ih.1
          _ = memSeq beta thresh (fun _ => 0) v0 n := one_mul _
          _ < thresh := ih.2
  intro n
  have hstep : memSeq beta thresh (fun _ => 0) v0 (n + 1) =
      beta * memSeq beta thresh (fun _ => 0) v0 n := by
    show (lifStep beta thresh 0 (memSeq beta thresh (fun _ => 0) v0 n)).2 = _
    rw [lifStep, if_neg (not_le.mpr (key n).2)]
    ring
  refine ⟨?_, ?_, ?_⟩
  · rw [hstep]
    calc beta * memSeq beta thresh (fun _ => 0) v0 n
        < 1 * memSeq beta thresh (fun _ => 0) v0 n :=
          mul_lt_mul_of_pos_right hb1 (key n).1
      _ = memSeq beta thresh (fun _ => 0) v0 n := one_mul _
  · rw [hstep]; exact mul_pos hb0 (key n).1
  · have hdec : beta * memSeq beta thresh (fun _ => 0) v0 n <
        memSeq beta thresh (fun _ => 0) v0 n := by
      calc beta * memSeq beta thresh (fun _ => 0) v0 n
          < 1 * memSeq beta thresh (fun _ => 0) v0 n :=
            mul_lt_mul_of_pos_right hb1 (key n).1
        _ = memSeq beta thresh (fun _ => 0) v0 n := one_mul _
    have harith : beta * memSeq beta thresh (fun _ => 0) v0 n + 0 -
        0 * thresh = beta * memSeq beta thresh (fun _ => 0) v0 n := by ring
    rw [lifStep]
    dsimp only
    rw [if_neg (not_le.mpr (key n).2), harith,
      if_neg (not_le.mpr (lt_trans hdec (key n).2))]

/-- C8 witness: decay after one step with `beta = 1/2`, threshold 1 and
starting potential 1/2. -/
theorem lif_zero_input_decay_witness :
    memSeq (1/2 : ℚ) 1 (fun _ => 0) (1/2) 1 <
      memSeq (1/2 : ℚ) 1 (fun _ => 0) (1/2) 0 ∧
    0 < memSeq (1/2 : ℚ) 1 (fun _ => 0) (1/2) 1 ∧
    (lifStep (1/2 : ℚ) 1 0 (memSeq (1/2 : ℚ) 1 (fun _ => 0) (1/2) 0)).1 = 0 :=
  lif_zero_input_decay (1/2 : ℚ) 1 (1/2) (by norm_num) (by norm_num)
    (by norm_num) (by norm_num) 0

lemma chunksDropLastGo_length {γ : Type} (bs : ℕ) :
    ∀ (fuel : ℕ) (l : List γ), ∀ c ∈ chunksDropLastGo bs fuel l,
      c.length = bs := by
  intro fuel
  induction fuel with
  | zero => intro l c hc; simp [chunksDropLastGo] at hc
  | succ fuel ih =>
    intro l c hc
    rw [chunksDropLastGo] at hc
    by_cases h : bs ≤ l.length
    · rw [if_pos h] at hc
      rcases List.mem_cons.mp hc with rfl | hc
      · rw [List.length_take]; exact min_eq_left h
      · exact ih _ c hc
    · rw [if_neg h] at hc; simp at hc

lemma flatten_length_uniform {γ : Type} {d : ℕ} :
    ∀ c : List (List γ), (∀ s ∈ c, s.length = d) →
      c.flatten.length = c.length * d := by
  intro c
  induction c with
  | nil => simp
  | cons s c ih =>
    intro h
    simp only [List.flatten_cons, List.length_append, List.length_cons]
    rw [h s (by simp), ih (fun x hx => h x (by simp [hx]))]
    ring

/-- C10: with `drop_last=True`, every batch produced by the training
loader has exactly `bs` samples, and consequently reshaping any such batch
of fixed-width samples with `view(bs, -1)` always succeeds. -/
theorem train_loader_full_batches {γ : Type} (bs d : ℕ)
    (dataset : List (List γ)) (hbs : 0 < bs) :
    ∀ c ∈ chunksDropLast bs dataset,
      c.length = bs ∧
      ((∀ s ∈ c, s.length = d) → (viewFlat bs c.flatten).isSome = true) := by
  intro c hc
  have hlen : c.length = bs := chunksDropLastGo_length bs _ dataset c hc
  refine ⟨hlen, fun hs => ?_⟩
  have hcond : bs ≠ 0 ∧ c.flatten.length % bs = 0 := by
    refine ⟨by omega, ?_⟩
    rw [flatten_length_uniform c hs, hlen]
    exact Nat.mul_mod_right bs d
  simp only [viewFlat]
  rw [if_pos hcond]
  rfl

/-- C10 witness: a three-sample dataset with batch size two: the single
surviving batch has exactly two samples and reshapes successfully. -/
theorem train_loader_full_batches_witness :
    (viewFlat 2 ([[(1 : ℚ)], [2]].flatten)).isSome = true :=
  (train_loader_full_batches 2 1 [[(1 : ℚ)], [2], [3]] (by norm_num)
    [[(1 : ℚ)], [2]]
    (by norm_num [chunksDropLast, chunksDropLastGo])).2
    (by norm_num)

lemma argmaxGo_no_update {bv : α} :
    ∀ (xs : List α) (i bi : ℕ), (∀ x ∈ xs, ¬ bv < x) →
      argmaxGo xs i bi bv = bi := by
  intro xs
  induction xs with
  | nil => intro i bi _; rfl
  | cons x xs ih =>
    intro i bi h
    simp only [argmaxGo]
    rw [if_neg (h x (by simp))]
    exact ih _ _ (fun y hy => h y (by simp [hy]))

lemma argmaxGo_set_replicate {t : α} (ht : 0 < t) :
    ∀ (k C i bi : ℕ), k < C →
      argmaxGo (List.set (List.replicate C (0 : α)) k t) i bi 0 = i + k := by
  intro k
  induction k with
  | zero =>
    intro C i bi hC
    obtain ⟨C', rfl⟩ := Nat.exists_eq_succ_of_ne_zero hC.ne'
    rw [List.replicate_succ, List.set_cons_zero]
    simp only [argmaxGo]
    rw [if_pos ht, argmaxGo_no_update (List.replicate C' 0) (i + 1) i
      (fun x hx => by
        rw [List.eq_of_mem_replicate hx]
        exact not_lt.mpr (le_of_lt ht))]
    omega
  | succ k ih =>
    intro C i bi hC
    obtain ⟨C', rfl⟩ :=
      Nat.exists_eq_succ_of_ne_zero (by omega : C ≠ 0)
    rw [List.replicate_succ, List.set_cons_succ]
    simp only [argmaxGo]
    rw [if_neg (lt_irrefl (0 : α)),
      ih C' (i + 1) bi (Nat.succ_lt_succ_iff.mp hC)]
    omega

lemma argmax_set_replicate {t : α} (ht : 0 < t) {k C : ℕ} (hk : k < C) :
    argmax (List.set (List.replicate C (0 : α)) k t) = k := by
  cases k with
  | zero =>
    obtain ⟨C', rfl⟩ := Nat.exists_eq_succ_of_ne_zero hk.ne'
    rw [List.replicate_succ, List.set_cons_zero]
    simp only [argmax]
    rw [argmaxGo_no_update (List.replicate C' 0) 1 0
      (fun x hx => by
        rw [List.eq_of_mem_replicate hx]
        exact not_lt.mpr (le_of_lt ht))]
  | succ k =>
    obtain ⟨C', rfl⟩ :=
      Nat.exists_eq_succ_of_ne_zero (by omega : C ≠ 0)
    rw [List.replicate_succ, List.set_cons_succ]
    simp only [argmax]
    rw [argmaxGo_set_replicate ht k C' 1 0 (Nat.succ_lt_succ_iff.mp hk)]
    omega

lemma matAdd_getD {A B : List (List α)} {b : ℕ} (hA : b < A.length)
    (hB : b < B.length) :
    (matAdd A B).getD b [] =
      List.zipWith (· + ·) (A.getD b []) (B.getD b []) := by
  have hb : b < (matAdd A B).length := by
    rw [matAdd, List.length_zipWith]; omega
  rw [List.getD_eq_getElem _ _ hb, List.getD_eq_getElem _ _ hA,
    List.getD_eq_getElem _ _ hB]
  exact List.getElem_zipWith

lemma foldl_matAdd_getD {b : ℕ} :
    ∀ (ts : List (List (List α))) (acc : List (List α)), b < acc.length →
      (∀ t ∈ ts, b < t.length) →
      (ts.foldl matAdd acc).getD b [] =
        ts.foldl (fun r t => List.zipWith (· + ·) r (t.getD b []))
          (acc.getD b []) ∧
      b < (ts.foldl matAdd acc).length := by
  intro ts
  induction ts with
  | nil => intro acc hacc _; exact ⟨rfl, hacc⟩
  | cons t ts ih =>
    intro acc hacc hts
    have hmem : b < t.length := hts t (by simp)
    have hlen : b < (matAdd acc t).length := by
      rw [matAdd, List.length_zipWith]; omega
    have := ih (matAdd acc t) hlen (fun u hu => hts u (by simp [hu]))
    refine ⟨?_, ?_⟩
    · simp only [List.foldl_cons]
      rw [this.1, matAdd_getD hacc hmem]
    · simpa using this.2

lemma zipWith_add_set_replicate (C k : ℕ) (s u : α) (hk : k < C) :
    List.zipWith (· + ·) (List.set (List.replicate C (0 : α)) k s)
      (List.set (List.replicate C (0 : α)) k u) =
      List.set (List.replicate C (0 : α)) k (s + u) := by
  apply List.ext_getElem
  · simp
  · intro j h1 h2
    rw [List.getElem_zipWith]
    by_cases hj : j = k
    · subst hj
      rw [List.getElem_set_self, List.getElem_set_self, List.getElem_set_self]
    · have hj' : k ≠ j := fun h => hj h.symm
      rw [List.getElem_set_ne hj', List.getElem_set_ne hj',
        List.getElem_set_ne hj', List.getElem_replicate]
      simp

lemma foldl_add_constant_rows (C k b : ℕ) (hk : k < C) :
    ∀ (ts : List (List (List α))),
      (∀ t ∈ ts, t.getD b [] = List.set (List.replicate C (0 : α)) k 1) →
      ∀ s : α,
        ts.foldl (fun r t => List.zipWith (· + ·) r (t.getD b []))
          (List.set (List.replicate C (0 : α)) k s) =
        List.set (List.replicate C (0 : α)) k (s + ts.length) := by
  intro ts
  induction ts with
  | nil => intro _ s; simp
  | cons t ts ih =>
    intro h s
    have hr : t.getD b [] = List.set (List.replicate C (0 : α)) k 1 :=
      h t (by simp)
    simp only [List.foldl_cons]
    rw [hr, zipWith_add_set_replicate C k s 1 hk,
      ih (fun u hu => h u (by simp [hu])) (s + 1), List.length_cons]
    congr 1
    push_cast
    ring

/-- C6: on any spike trajectory in which, for sample `b`, class `k` spikes
at every one of the `T ≥ 1` steps and every other class never spikes, the
Evaluator (time-sum over the trajectory followed by per-sample arg-max)
predicts class `k` for that sample. -/
theorem evaluator_unanimous_class (T C k b : ℕ)
    (traj : List (List (List α))) (hT : traj.length = T) (hT0 : 0 < T)
    (hk : k < C)
    (hrows : ∀ t ∈ traj, b < t.length ∧
      t.getD b [] = List.set (List.replicate C (0 : α)) k 1) :
    ((sumDim0 traj).map argmax).getD b 0 = k := by
  obtain ⟨t0, ts, rfl⟩ : ∃ t0 ts, traj = t0 :: ts := by
    cases traj with
    | nil => rw [List.length_nil] at hT; omega
    | cons t0 ts => exact ⟨t0, ts, rfl⟩
  have h0 := hrows t0 (by simp)
  have hts : ∀ t ∈ ts, b < t.length := fun t ht => (hrows t (by simp [ht])).1
  have htsr : ∀ t ∈ ts, t.getD b [] =
      List.set (List.replicate C (0 : α)) k 1 :=
    fun t ht => (hrows t (by simp [ht])).2
  have hfold := foldl_matAdd_getD ts t0 h0.1 hts
  have hrow : (sumDim0 (t0 :: ts)).getD b [] =
      List.set (List.replicate C (0 : α)) k (1 + ts.length) := by
    simp only [sumDim0]
    rw [hfold.1, h0.2]
    exact foldl_add_constant_rows C k b hk ts htsr 1
  have hblen : b < (sumDim0 (t0 :: ts)).length := by
    simp only [sumDim0]; exact hfold.2
  have hblen' : b < ((sumDim0 (t0 :: ts)).map argmax).length := by
    rw [List.length_map]; exact hblen
  rw [List.getD_eq_getElem _ _ hblen', List.getElem_map]
  have hgb : (sumDim0 (t0 :: ts))[b] =
      List.set (List.replicate C (0 : α)) k (1 + ts.length) := by
    rw [← List.getD_eq_getElem _ ([] : List α) hblen]
    exact hrow
  rw [hgb]
  exact argmax_set_replicate
    (by positivity : (0 : α) < 1 + (ts.length : α)) hk

/-- C6 witness: a two-step, three-class trajectory with one sample in which
class 2 spikes at both steps; the evaluator predicts class 2. -/
theorem evaluator_unanimous_class_witness :
    ((sumDim0 [[[(0 : ℚ), 0, 1]], [[0, 0, 1]]]).map argmax).getD 0 0 = 2 :=
  evaluator_unanimous_class 2 3 2 0 [[[(0 : ℚ), 0, 1]], [[0, 0, 1]]] rfl
    (by norm_num) (by norm_num)
    (by
      intro t ht
      rcases List.mem_cons.mp ht with rfl | ht
      · exact ⟨by norm_num, by rfl⟩
      · rcases List.mem_cons.mp ht with rfl | ht
        · exact ⟨by norm_num, by rfl⟩
        · simp at ht)

lemma crossEntropy_nonneg (logits : List ℝ) (label : ℕ)
    (h : label < logits.length) : 0 ≤ crossEntropy logits label := by
  unfold crossEntropy
  rw [List.getD_eq_getElem _ _ h]
  have hmem : Real.exp logits[label] ∈ logits.map Real.exp :=
    List.mem_map.mpr ⟨logits[label], List.getElem_mem h, rfl⟩
  have hle : Real.exp logits[label] ≤ (logits.map Real.exp).sum :=
    List.single_le_sum
      (fun x hx => by
        obtain ⟨y, _, rfl⟩ := List.mem_map.mp hx
        exact (Real.exp_pos y).le)
      _ hmem
  have hlog := Real.log_le_log (Real.exp_pos _) hle
  rw [Real.log_exp] at hlog
  linarith

lemma crossEntropyLoss_nonneg (logits : List (List ℝ)) (targets : List ℕ)
    (h : ∀ p ∈ logits.zip targets, p.2 < p.1.length) :
    0 ≤ crossEntropyLoss logits targets := by
  unfold crossEntropyLoss
  apply div_nonneg _ (Nat.cast_nonneg _)
  apply List.sum_nonneg
  intro x hx
  rw [List.mem_iff_getElem] at hx
  obtain ⟨i, hi, rfl⟩ := hx
  rw [List.getElem_zipWith]
  apply crossEntropy_nonneg
  have hiz : i < (logits.zip targets).length := by
    rw [List.length_zip]
    rw [List.length_zipWith] at hi
    exact hi
  have hp := h (logits.zip targets)[i] (List.getElem_mem hiz)
  rw [List.getElem_zip] at hp
  exact hp

/-- C5: the aggregated training loss equals the sum over the `T` steps of
the per-step cross-entropy of (potential tensor, labels); it is
non-negative whenever every label indexes into its logits row; and if the
per-step loss is a constant `c`, the aggregate is exactly `T * c` (linear
scaling in `T`). -/
theorem loss_aggregator_correct (T : ℕ) (memRec : List (List (List ℝ)))
    (targets : List ℕ) (c : ℝ) :
    loss_val T memRec targets =
      ∑ step ∈ Finset.range T,
        crossEntropyLoss (memRec.getD step []) targets ∧
    ((∀ m ∈ memRec, ∀ p ∈ m.zip targets, p.2 < p.1.length) →
      0 ≤ loss_val T memRec targets) ∧
    ((∀ step < T, crossEntropyLoss (memRec.getD step []) targets = c) →
      loss_val T memRec targets = T * c) := by
  refine ⟨rfl, fun hvalid => ?_, fun hconst => ?_⟩
  · apply Finset.sum_nonneg
    intro step _
    by_cases hs : step < memRec.length
    · refine crossEntropyLoss_nonneg _ _ ?_
      rw [List.getD_eq_getElem _ _ hs]
      exact hvalid _ (List.getElem_mem hs)
    · rw [List.getD_eq_default _ _ (not_lt.mp hs)]
      simp [crossEntropyLoss]
  · show (∑ step ∈ Finset.range T,
        crossEntropyLoss (memRec.getD step []) targets) = T * c
    rw [Finset.sum_congr rfl
      (fun s hs => hconst s (Finset.mem_range.mp hs)),
      Finset.sum_const, Finset.card_range, nsmul_eq_mul]

/-- C5 witness: non-negativity and linear scaling on a concrete two-step
potential trajectory for a one-sample batch with label 1. -/
theorem loss_aggregator_correct_witness :
    0 ≤ loss_val 2 [[[(0 : ℝ), 1]], [[0, 1]]] [1] ∧
    loss_val 2 [[[(0 : ℝ), 1]], [[0, 1]]] [1] =
      (2 : ℕ) * crossEntropyLoss [[(0 : ℝ), 1]] [1] :=
  ⟨(loss_aggregator_correct 2 [[[(0 : ℝ), 1]], [[0, 1]]] [1]
      (crossEntropyLoss [[(0 : ℝ), 1]] [1])).2.1
    (by
      intro m hm p hp
      rcases List.mem_cons.mp hm with rfl | hm
      · simp only [List.zip_cons_cons, List.zip_nil_right] at hp
        rcases List.mem_cons.mp hp with rfl | hp
        · norm_num
        · simp at hp
      · rcases List.mem_cons.mp hm with rfl | hm
        · simp only [List.zip_cons_cons, List.zip_nil_right] at hp
          rcases List.mem_cons.mp hp with rfl | hp
          · norm_num
          · simp at hp
        · simp at hm),
   (loss_aggregator_correct 2 [[[(0 : ℝ), 1]], [[0, 1]]] [1]
      (crossEntropyLoss [[(0 : ℝ), 1]] [1])).2.2
    (by
      intro step hstep
      interval_cases step <;> rfl)⟩

/-- C9: each training iteration appends exactly one scalar to the train
history and one to the test history (both histories are preserved as
prefixes, so they are append-only and stay equal in length), and neither
the new weights nor the appended loss values depend on the history
contents: two states with the same weights but arbitrary histories produce
the same new weights and the same appended entries. -/
theorem history_append_once (beta thresh : ℝ) (T : ℕ)
    (update : Net ℝ → List (List ℝ) → List ℕ → ℝ → Net ℝ)
    (s s' : TrainState) (data : List (List ℝ)) (targets : List ℕ)
    (test_data : List (List ℝ)) (test_targets : List ℕ)
    (hnet : s'.net = s.net) :
    (trainIteration beta thresh T update s data targets test_data
        test_targets).train_loss_hist.length =
      s.train_loss_hist.length + 1 ∧
    (trainIteration beta thresh T update s data targets test_data
        test_targets).test_loss_hist.length =
      s.test_loss_hist.length + 1 ∧
    (trainIteration beta thresh T update s data targets test_data
        test_targets).train_loss_hist.take s.train_loss_hist.length =
      s.train_loss_hist ∧
    (trainIteration beta thresh T update s data targets test_data
        test_targets).test_loss_hist.take s.test_loss_hist.length =
      s.test_loss_hist ∧
    (s.train_loss_hist.length = s.test_loss_hist.length →
      (trainIteration beta thresh T update s data targets test_data
          test_targets).train_loss_hist.length =
        (trainIteration beta thresh T update s data targets test_data
          test_targets).test_loss_hist.length) ∧
    (trainIteration beta thresh T update s' data targets test_data
        test_targets).net =
      (trainIteration beta thresh T update s data targets test_data
        test_targets).net ∧
    (trainIteration beta thresh T update s' data targets test_data
        test_targets).train_loss_hist.getLast? =
      (trainIteration beta thresh T update s data targets test_data
        test_targets).train_loss_hist.getLast? ∧
    (trainIteration beta thresh T update s' data targets test_data
        test_targets).test_loss_hist.getLast? =
      (trainIteration beta thresh T update s data targets test_data
        test_targets).test_loss_hist.getLast? := by
  refine ⟨?_, ?_, ?_, ?_, ?_, ?_, ?_, ?_⟩
  · simp [trainIteration]
  · simp [trainIteration]
  · simp only [trainIteration]
    exact List.take_left _ _
  · simp only [trainIteration]
    exact List.take_left _ _
  · intro h
    simp [trainIteration, h]
  · simp [trainIteration, hnet]
  · simp only [trainIteration, hnet, List.getLast?_concat]
  · simp only [trainIteration, hnet, List.getLast?_concat]

/-- C9 witness: the train history grows by exactly one entry on a concrete
iteration with empty initial histories and an identity weight update. -/
theorem history_append_once_witness :
    (trainIteration 1 1 0 (fun n _ _ _ => n)
        ⟨⟨[], [], [], []⟩, [], []⟩ [] [] [] []).train_loss_hist.length =
      ([] : List ℝ).length + 1 :=
  (history_append_once 1 1 0 (fun n _ _ _ => n)
    ⟨⟨[], [], [], []⟩, [], []⟩ ⟨⟨[], [], [], []⟩, [], []⟩
    [] [] [] [] rfl).1

lemma evalLoop_fold (beta thresh : α) (net : Net α) (T : ℕ) :
    ∀ (batches : List (List (List α × ℕ))) (a b : ℕ),
      batches.foldl
        (fun acc batch => (acc.1 + evalChunk beta thresh net T batch,
                           acc.2 + batch.length)) (a, b) =
      (a + (batches.map (evalChunk beta thresh net T)).sum,
       b + (batches.map List.length).sum) := by
  intro batches
  induction batches with
  | nil => intro a b; simp
  | cons batch batches ih =>
    intro a b
    simp only [List.foldl_cons, List.map_cons, List.sum_cons]
    rw [ih]
    simp [Nat.add_assoc]

lemma evalLoop_spec (beta thresh : α) (net : Net α) (T : ℕ)
    (batches : List (List (List α × ℕ))) :
    evalLoop beta thresh net T batches =
      ((batches.map (evalChunk beta thresh net T)).sum,
       (batches.map List.length).sum) := by
  simpa using evalLoop_fold beta thresh net T batches 0 0

lemma chunksGo_flatten {γ : Type} (bs : ℕ) (hbs : 0 < bs) :
    ∀ (fuel : ℕ) (l : List γ), l.length ≤ fuel →
      (chunksGo bs fuel l).flatten = l := by
  intro fuel
  induction fuel with
  | zero =>
    intro l hl
    have hnil : l = [] := List.eq_nil_of_length_eq_zero (Nat.le_zero.mp hl)
    subst hnil; rfl
  | succ fuel ih =>
    intro l hl
    cases l with
    | nil => rfl
    | cons x xs =>
      simp only [chunksGo, List.flatten_cons]
      rw [ih _ (by rw [List.length_drop]; simp at hl ⊢; omega),
        List.take_append_drop]

lemma chunks_flatten {γ : Type} (bs : ℕ) (hbs : 0 < bs) (l : List γ) :
    (chunks bs l).flatten = l :=
  chunksGo_flatten bs hbs l.length l le_rfl

lemma countP_sum_chunks {γ : Type} (p : γ → Bool) :
    ∀ L : List (List γ), (L.map (List.countP p)).sum = L.flatten.countP p := by
  intro L
  induction L with
  | nil => rfl
  | cons c L ih =>
    simp only [List.map_cons, List.sum_cons, List.flatten_cons,
      List.countP_append, ih]

lemma forwardAux_len (beta thresh : α) (net : Net α) (X : List (List α)) :
    ∀ (T : ℕ) (Mem1 Mem2 : List (List α)),
      (forwardAux beta thresh net X T Mem1 Mem2).1.length = T := by
  intro T
  induction T with
  | zero => intro Mem1 Mem2; rfl
  | succ T ih =>
    intro Mem1 Mem2
    simp only [forwardAux, List.length_cons, ih]

lemma forwardAux_rowcount (beta thresh : α) (net : Net α)
    (X : List (List α)) :
    ∀ (T : ℕ) (Mem1 Mem2 : List (List α)),
      Mem1.length = X.length → Mem2.length = X.length →
      ∀ t ∈ (forwardAux beta thresh net X T Mem1 Mem2).1,
        t.length = X.length := by
  intro T
  induction T with
  | zero => intro Mem1 Mem2 _ _ t ht; simp [forwardAux] at ht
  | succ T ih =>
    intro Mem1 Mem2 hM1 hM2 t ht
    have hp1 : ((leakyBatch beta thresh (linearBatch net.W1 net.b1 X)
        Mem1).2).length = X.length := by
      rw [leakyBatch_snd_length, length_linearBatch, hM1, min_self]
    have hp1f : ((leakyBatch beta thresh (linearBatch net.W1 net.b1 X)
        Mem1).1).length = X.length := by
      rw [leakyBatch_fst_length, length_linearBatch, hM1, min_self]
    have hp2f : ((leakyBatch beta thresh (linearBatch net.W2 net.b2
        (leakyBatch beta thresh (linearBatch net.W1 net.b1 X) Mem1).1)
        Mem2).1).length = X.length := by
      rw [leakyBatch_fst_length, length_linearBatch, hp1f, hM2, min_self]
    have hp2s : ((leakyBatch beta thresh (linearBatch net.W2 net.b2
        (leakyBatch beta thresh (linearBatch net.W1 net.b1 X) Mem1).1)
        Mem2).2).length = X.length := by
      rw [leakyBatch_snd_length, length_linearBatch, hp1f, hM2, min_self]
    simp only [forwardAux, List.mem_cons] at ht
    rcases ht with rfl | ht
    · exact hp2f
    · exact ih _ _ hp1 hp2s t ht

lemma foldl_matAdd_length {B : ℕ} :
    ∀ (ts : List (List (List α))) (acc : List (List α)),
      acc.length = B → (∀ t ∈ ts, t.length = B) →
      (ts.foldl matAdd acc).length = B := by
  intro ts
  induction ts with
  | nil => intro acc hacc _; exact hacc
  | cons t ts ih =>
    intro acc hacc hts
    simp only [List.foldl_cons]
    refine ih _ ?_ (fun u hu => hts u (by simp [hu]))
    rw [matAdd, List.length_zipWith, hacc, hts t (by simp), min_self]

lemma linearBatch_getD {W : List (List α)} {b : List α} {X : List (List α)}
    {i : ℕ} (hi : i < X.length) :
    (linearBatch W b X).getD i [] = linear W b (X.getD i []) := by
  have hi' : i < (linearBatch W b X).length := by
    rw [length_linearBatch]; exact hi
  rw [List.getD_eq_getElem _ _ hi', List.getD_eq_getElem _ _ hi]
  simp [linearBatch]

lemma leakyBatch_fst_getD {beta thresh : α} {I M : List (List α)} {i : ℕ}
    (hI : i < I.length) (hM : i < M.length) :
    ((leakyBatch beta thresh I M).1).getD i [] =
      (leakyForward beta thresh (I.getD i []) (M.getD i [])).1 := by
  have hi' : i < ((leakyBatch beta thresh I M).1).length := by
    rw [leakyBatch_fst_length]; omega
  rw [List.getD_eq_getElem _ _ hi', List.getD_eq_getElem _ _ hI,
    List.getD_eq_getElem _ _ hM]
  simp [leakyBatch, List.getElem_zipWith]

lemma leakyBatch_snd_getD {beta thresh : α} {I M : List (List α)} {i : ℕ}
    (hI : i < I.length) (hM : i < M.length) :
    ((leakyBatch beta thresh I M).2).getD i [] =
      (leakyForward beta thresh (I.getD i []) (M.getD i [])).2 := by
  have hi' : i < ((leakyBatch beta thresh I M).2).length := by
    rw [leakyBatch_snd_length]; omega
  rw [List.getD_eq_getElem _ _ hi', List.getD_eq_getElem _ _ hI,
    List.getD_eq_getElem _ _ hM]
  simp [leakyBatch, List.getElem_zipWith]

/-- The batched unroll decomposes per sample: extracting row `b` of every
recorded tensor gives exactly the single-sample unroll of sample `b`. -/
lemma forwardAux_getD (beta thresh : α) (net : Net α) (X : List (List α))
    (b : ℕ) (hb : b < X.length) :
    ∀ (T : ℕ) (Mem1 Mem2 : List (List α)),
      Mem1.length = X.length → Mem2.length = X.length →
      (forwardAux beta thresh net X T Mem1 Mem2).1.map
          (fun t => t.getD b []) =
        (sforwardAux beta thresh net (X.getD b []) T (Mem1.getD b [])
          (Mem2.getD b [])).1 ∧
      (forwardAux beta thresh net X T Mem1 Mem2).2.map
          (fun t => t.getD b []) =
        (sforwardAux beta thresh net (X.getD b []) T (Mem1.getD b [])
          (Mem2.getD b [])).2 := by
  intro T
  induction T with
  | zero => intro Mem1 Mem2 _ _; exact ⟨rfl, rfl⟩
  | succ T ih =>
    intro Mem1 Mem2 hM1 hM2
    have hcur1 : (linearBatch net.W1 net.b1 X).getD b [] =
        linear net.W1 net.b1 (X.getD b []) := linearBatch_getD hb
    have hcur1len : (linearBatch net.W1 net.b1 X).length = X.length :=
      length_linearBatch _ _ _
    have hp1f : ((leakyBatch beta thresh (linearBatch net.W1 net.b1 X)
        Mem1).1).getD b [] =
        (leakyForward beta thresh (linear net.W1 net.b1 (X.getD b []))
          (Mem1.getD b [])).1 := by
      rw [leakyBatch_fst_getD (by omega) (by omega), hcur1]
    have hp1s : ((leakyBatch beta thresh (linearBatch net.W1 net.b1 X)
        Mem1).2).getD b [] =
        (leakyForward beta thresh (linear net.W1 net.b1 (X.getD b []))
          (Mem1.getD b [])).2 := by
      rw [leakyBatch_snd_getD (by omega) (by omega), hcur1]
    have hp1flen : ((leakyBatch beta thresh (linearBatch net.W1 net.b1 X)
        Mem1).1).length = X.length := by
      rw [leakyBatch_fst_length, hcur1len, hM1, min_self]
    have hp1slen : ((leakyBatch beta thresh (linearBatch net.W1 net.b1 X)
        Mem1).2).length = X.length := by
      rw [leakyBatch_snd_length, hcur1len, hM1, min_self]
    have hcur2 : (linearBatch net.W2 net.b2
        (leakyBatch beta thresh (linearBatch net.W1 net.b1 X) Mem1).1).getD
          b [] =
        linear net.W2 net.b2
          ((leakyBatch beta thresh (linearBatch net.W1 net.b1 X)
            Mem1).1.getD b []) := linearBatch_getD (by omega)
    have hcur2len : (linearBatch net.W2 net.b2
        (leakyBatch beta thresh (linearBatch net.W1 net.b1 X)
          Mem1).1).length = X.length := by
      rw [length_linearBatch, hp1flen]
    have hp2f : ((leakyBatch beta thresh (linearBatch net.W2 net.b2
        (leakyBatch beta thresh (linearBatch net.W1 net.b1 X) Mem1).1)
        Mem2).1).getD b [] =
        (leakyForward beta thresh
          (linear net.W2 net.b2
            (leakyForward beta thresh (linear net.W1 net.b1 (X.getD b []))
              (Mem1.getD b [])).1)
          (Mem2.getD b [])).1 := by
      rw [leakyBatch_fst_getD (by omega) (by omega), hcur2, hp1f]
    have hp2s : ((leakyBatch beta thresh (linearBatch net.W2 net.b2
        (leakyBatch beta thresh (linearBatch net.W1 net.b1 X) Mem1).1)
        Mem2).2).getD b [] =
        (leakyForward beta thresh
          (linear net.W2 net.b2
            (leakyForward beta thresh (linear net.W1 net.b1 (X.getD b []))
              (Mem1.getD b [])).1)
          (Mem2.getD b [])).2 := by
      rw [leakyBatch_snd_getD (by omega) (by omega), hcur2, hp1f]
    have hp2slen : ((leakyBatch beta thresh (linearBatch net.W2 net.b2
        (leakyBatch beta thresh (linearBatch net.W1 net.b1 X) Mem1).1)
        Mem2).2).length = X.length := by
      rw [leakyBatch_snd_length, hcur2len, hM2, min_self]
    obtain ⟨ih1, ih2⟩ := ih
      (leakyBatch beta thresh (linearBatch net.W1 net.b1 X) Mem1).2
      (leakyBatch beta thresh (linearBatch net.W2 net.b2
        (leakyBatch beta thresh (linearBatch net.W1 net.b1 X) Mem1).1)
        Mem2).2
      hp1slen hp2slen
    rw [hp1s, hp2s] at ih1 ih2
    constructor
    · simp only [forwardAux, sforwardAux, List.map_cons]
      rw [hp2f, ih1]
    · simp only [forwardAux, sforwardAux, List.map_cons]
      rw [hp2s, ih2]

lemma initMem_getD {B n b : ℕ} (hb : b < B) :
    (initMem B n : List (List α)).getD b [] = List.replicate n 0 := by
  have hb' : b < (initMem B n : List (List α)).length := by
    rw [initMem_length]; exact hb
  rw [List.getD_eq_getElem _ _ hb']
  simp [initMem]

lemma forward_map_getD (beta thresh : α) (net : Net α) (X : List (List α))
    (T b : ℕ) (hb : b < X.length) :
    (Net.forward beta thresh net T X).1.map (fun t => t.getD b []) =
      (sforward beta thresh net T (X.getD b [])).1 := by
  simp only [Net.forward, sforward]
  have h := (forwardAux_getD beta thresh net X b hb T
    (initMem X.length net.W1.length) (initMem X.length net.W2.length)
    (initMem_length _ _) (initMem_length _ _)).1
  rw [initMem_getD hb, initMem_getD hb] at h
  exact h

lemma zipWith_beq_map_count {σ : Type} (f g : σ → ℕ) :
    ∀ l : List σ,
      (List.zipWith (fun p t => p == t) (l.map f) (l.map g)).count true =
        l.countP (fun s => f s == g s) := by
  intro l
  induction l with
  | nil => rfl
  | cons s l ih =>
    simp only [List.map_cons, List.zipWith_cons_cons, List.count_cons,
      List.countP_cons, ih]
    congr 1
    simp

/-- One batch of the full-dataset evaluation counts exactly the samples of
the batch whose prediction matches the label. -/
lemma evalChunk_countP (beta thresh : α) (net : Net α) (T : ℕ) (hT : 0 < T)
    (batch : List (List α × ℕ)) :
    evalChunk beta thresh net T batch =
      batch.countP (correctSample beta thresh net T) := by
  have hXlen : (batch.map Prod.fst).length = batch.length :=
    List.length_map _ _
  have hrows : ∀ t ∈ (Net.forward beta thresh net T (batch.map Prod.fst)).1,
      t.length = (batch.map Prod.fst).length := by
    simp only [Net.forward]
    exact forwardAux_rowcount beta thresh net _ T _ _
      (initMem_length _ _) (initMem_length _ _)
  have hlenT : (Net.forward beta thresh net T (batch.map Prod.fst)).1.length
      = T := by
    simp only [Net.forward]
    exact forwardAux_len _ _ _ _ T _ _
  obtain ⟨t0, ts, hcons⟩ : ∃ t0 ts,
      (Net.forward beta thresh net T (batch.map Prod.fst)).1 = t0 :: ts := by
    cases hsp : (Net.forward beta thresh net T (batch.map Prod.fst)).1 with
    | nil => rw [hsp] at hlenT; rw [List.length_nil] at hlenT; omega
    | cons a l => exact ⟨a, l, rfl⟩
  have ht0 : t0.length = (batch.map Prod.fst).length :=
    hrows t0 (by rw [hcons]; simp)
  have hts : ∀ t ∈ ts, t.length = (batch.map Prod.fst).length :=
    fun t ht => hrows t (by rw [hcons]; simp [ht])
  have hsumlen : (sumDim0 (Net.forward beta thresh net T
      (batch.map Prod.fst)).1).length = batch.length := by
    rw [hcons]
    simp only [sumDim0]
    rw [foldl_matAdd_length ts t0 ht0 hts]
    exact hXlen
  have hpred : (sumDim0 (Net.forward beta thresh net T
      (batch.map Prod.fst)).1).map argmax =
      batch.map (fun s => argmax (sumDim0Vec
        (sforward beta thresh net T s.1).1)) := by
    apply List.ext_getElem
    · rw [List.length_map, List.length_map, hsumlen]
    · intro b h1 h2
      have hb : b < batch.length := by
        rw [List.length_map, hsumlen] at h1; exact h1
      have hbX : b < (batch.map Prod.fst).length := by rw [hXlen]; exact hb
      rw [List.getElem_map, List.getElem_map]
      congr 1
      have hb' : b < (sumDim0 (Net.forward beta thresh net T
          (batch.map Prod.fst)).1).length := by rw [hsumlen]; exact hb
      rw [← List.getD_eq_getElem _ ([] : List α) hb']
      have hfold := foldl_matAdd_getD (b := b) ts t0
        (by rw [ht0]; exact hbX) (fun t ht => by rw [hts t ht]; exact hbX)
      have e2 := forward_map_getD beta thresh net (batch.map Prod.fst) T b
        hbX
      have hxb : (batch.map Prod.fst).getD b [] = batch[b].1 := by
        rw [List.getD_eq_getElem _ _ hbX, List.getElem_map]
      conv_lhs => rw [hcons]
      simp only [sumDim0]
      rw [hfold.1]
      rw [← hxb, ← e2, hcons, List.map_cons]
      simp only [sumDim0Vec]
      rw [List.foldl_map]
  show (List.zipWith (fun p t => p == t)
      ((sumDim0 (Net.forward beta thresh net T (batch.map Prod.fst)).1).map
        argmax)
      (batch.map Prod.snd)).count true = _
  rw [hpred, zipWith_beq_map_count
    (fun s => argmax (sumDim0Vec (sforward beta thresh net T s.1).1))
    Prod.snd batch]
  rfl

/-- C7: the full-dataset evaluation over the `drop_last=False` loader
processes every sample: the accumulated `total` equals the dataset size
and the accumulated `corrects` equals the number of dataset samples whose
predicted class matches their label. -/
theorem full_dataset_eval_counts (beta thresh : α) (net : Net α) (T bs : ℕ)
    (dataset : List (List α × ℕ)) (hbs : 0 < bs) (hT : 0 < T) :
    (evalLoop beta thresh net T (chunks bs dataset)).2 = dataset.length ∧
    (evalLoop beta thresh net T (chunks bs dataset)).1 =
      dataset.countP (correctSample beta thresh net T) := by
  rw [evalLoop_spec]
  constructor
  · show ((chunks bs dataset).map List.length).sum = _
    rw [← List.length_flatten, chunks_flatten bs hbs]
  · show ((chunks bs dataset).map (evalChunk beta thresh net T)).sum = _
    have hmap : (chunks bs dataset).map (evalChunk beta thresh net T) =
        (chunks bs dataset).map
          (List.countP (correctSample beta thresh net T)) :=
      List.map_congr_left
        (fun batch _ => evalChunk_countP beta thresh net T hT batch)
    rw [hmap, countP_sum_chunks, chunks_flatten bs hbs]

/-- C7 witness: a three-sample dataset with batch size two (so the final
batch is partial): the loop reports `total = 3` and a correct count equal
to the per-sample tally. -/
theorem full_dataset_eval_counts_witness :
    (evalLoop (1/2 : ℚ) 1 ⟨[[1]], [0], [[1]], [0]⟩ 3
        (chunks 2 [([(2 : ℚ)], 0), ([0], 0), ([2], 1)])).2 =
      [([(2 : ℚ)], 0), ([0], 0), ([2], 1)].length ∧
    (evalLoop (1/2 : ℚ) 1 ⟨[[1]], [0], [[1]], [0]⟩ 3
        (chunks 2 [([(2 : ℚ)], 0), ([0], 0), ([2], 1)])).1 =
      [([(2 : ℚ)], 0), ([0], 0), ([2], 1)].countP
        (correctSample (1/2 : ℚ) 1 ⟨[[1]], [0], [[1]], [0]⟩ 3) :=
  full_dataset_eval_counts (1/2 : ℚ) 1 ⟨[[1]], [0], [[1]], [0]⟩ 3 2
    [([(2 : ℚ)], 0), ([0], 0), ([2], 1)] (by norm_num) (by norm_num)

end SNN
